import Mathlib

/-!
Verification development for the Nexus-graph frontend streaming subsystem.

The definitions below are a shallow embedding of the TypeScript sources:
  - src/frontend/src/hooks/use-chat.ts      (useChat, useWebSocketChat)
  - src/frontend/src/lib/api.ts             (NexusAPI.chatStream)
  - src/frontend/src/hooks/use-ingestion.ts (useIngestion)
  - src/frontend/src/components/inline-upload.tsx (InlineUpload.uploadFiles)
  - src/unnamed/part_000                    (UploadModal.uploadFiles)
  - src/unnamed/part_001                    (HomePage.handleSubmit)

JSON payloads arriving over the wire are dynamically shaped; the reducers
sniff individual fields.  We model such a payload as a record of optional
fields (presence of a key = `some`), which is what `JSON.parse` can deliver
for the fields the client code ever reads.
-/

/-- Agent lifecycle status, from the `AgentStep` interface in use-chat.ts. -/
inductive Status where
  | pending
  | running
  | completed
  | failed
deriving DecidableEq, Repr

/-- Structured data kind, from the `ChatResponse` interface in api.ts. -/
inductive RespType where
  | text
  | table
  | graph
deriving DecidableEq, Repr

/-- A parsed JSON event payload as the client reducers see it: every field
the client code reads modelled as optional (a missing key is `none`). -/
structure Chunk where
  agent : Option String := none
  status : Option Status := none
  thinking : Option String := none
  output_summary : Option String := none
  conversation_id : Option String := none
  content : Option String := none
  response_type : Option RespType := none
  metadata : Option (List (String × String)) := none
  processing_time_ms : Option Nat := none
deriving DecidableEq, Repr

/-- Overwrite semantics of one key of a JavaScript object spread
`\x7b ...old, ...new \x7d`: a key present in `new` wins, otherwise the old
value (or absence) is kept. -/
def ov {α : Type} : Option α → Option α → Option α
  | some x, _ => some x
  | none, o => o

@[simp] theorem ov_some {α : Type} (x : α) (o : Option α) : ov (some x) o = some x := rfl

@[simp] theorem ov_none {α : Type} (o : Option α) : ov none o = o := rfl

/-- The object spread `\x7b ...s, ...c \x7d` used by the step-update
reducers in use-chat.ts (lines 76 and 182) and part_001 (line 141),
restricted to the keys the client code ever reads. -/
def mergeChunk (s c : Chunk) : Chunk where
  agent := ov c.agent s.agent
  status := ov c.status s.status
  thinking := ov c.thinking s.thinking
  output_summary := ov c.output_summary s.output_summary
  conversation_id := ov c.conversation_id s.conversation_id
  content := ov c.content s.content
  response_type := ov c.response_type s.response_type
  metadata := ov c.metadata s.metadata
  processing_time_ms := ov c.processing_time_ms s.processing_time_ms

/-- The step-update `setCurrentSteps` callback shared by useChat.sendMessage
(use-chat.ts lines 72-80), the socket dispatcher (lines 178-186) and
HomePage.handleSubmit (part_001 lines 137-145): if an entry with the same
`agent` key exists it is shallowly merged in place, otherwise the event is
appended. -/
def updateSteps (prev : List Chunk) (c : Chunk) : List Chunk :=
  if ∃ s ∈ prev, s.agent = c.agent then
    prev.map fun s => if s.agent = c.agent then mergeChunk s c else s
  else prev ++ [c]

/-- Fold a whole event list through the step-update reducer, starting from
the empty step list a new turn begins with. -/
def foldSteps (cs : List Chunk) : List Chunk := cs.foldl updateSteps []

/-- First occurrence of each key, in first-seen order (the order in which
distinct agents first appear in the stream). -/
def dedupFirst : List (Option String) → List (Option String)
  | [] => []
  | a :: as => a :: dedupFirst (as.filter fun b => decide ¬ (b = a))
termination_by l => l.length
decreasing_by
  simp only [List.length_cons]
  exact Nat.lt_succ_of_le (List.length_filter_le _ _)

/-- The events of the stream addressed to one agent key, in stream order. -/
def filterKey (cs : List Chunk) (a : Option String) : List Chunk :=
  cs.filter fun c => decide (c.agent = a)

/-- Left-to-right shallow merge of a nonempty event list (the first event is
inserted as is, each later one is spread over the accumulated entry). -/
def merge1 : List Chunk → Chunk
  | [] => {}
  | c :: cs => cs.foldl mergeChunk c

/-- Specification-side description of the reducer state (spec.md section 3
and section 8, first testable property): one entry per distinct agent key,
positioned at that key's first-seen index, holding the shallow merge of all
events with that key. -/
def canonicalSteps (cs : List Chunk) : List Chunk :=
  (dedupFirst (cs.map fun c => c.agent)).map fun a => merge1 (filterKey cs a)

@[simp] theorem ov_self {α : Type} (o : Option α) : ov o o = o := by
  cases o <;> rfl

theorem mem_dedupFirst {x : Option String} {K : List (Option String)} :
    x ∈ dedupFirst K ↔ x ∈ K := by
  induction K using dedupFirst.induct with
  | case1 => simp [dedupFirst]
  | case2 a as ih =>
    simp only [dedupFirst, List.mem_cons, ih, List.mem_filter, decide_eq_true_eq]
    constructor
    · rintro (h | ⟨h, _⟩)
      · exact Or.inl h
      · exact Or.inr h
    · rintro (h | h)
      · exact Or.inl h
      · by_cases hxa : x = a
        · exact Or.inl hxa
        · exact Or.inr ⟨h, hxa⟩

theorem nodup_dedupFirst (K : List (Option String)) : (dedupFirst K).Nodup := by
  induction K using dedupFirst.induct with
  | case1 => simp [dedupFirst]
  | case2 a as ih =>
    simp only [dedupFirst, List.nodup_cons]
    refine ⟨fun hmem => ?_, ih⟩
    have h2 := mem_dedupFirst.mp hmem
    simp [List.mem_filter] at h2

theorem dedupFirst_append_mem (a : Option String) (K : List (Option String)) :
    a ∈ K → dedupFirst (K ++ [a]) = dedupFirst K := by
  induction K using dedupFirst.induct with
  | case1 => intro h; simp at h
  | case2 b bs ih =>
    intro h
    rcases List.mem_cons.mp h with hab | hmem
    · subst hab
      simp [dedupFirst, List.filter_append]
    · by_cases hab : a = b
      · subst hab
        simp [dedupFirst, List.filter_append]
      · have hmem2 : a ∈ bs.filter fun x => decide ¬ (x = b) := by
          simp [List.mem_filter, hab, hmem]
        simp only [List.cons_append, dedupFirst, List.filter_append]
        rw [show ([a].filter fun x => decide ¬ (x = b)) = [a] by simp [hab]]
        rw [ih hmem2]

theorem dedupFirst_append_not_mem (a : Option String) (K : List (Option String)) :
    a ∉ K → dedupFirst (K ++ [a]) = dedupFirst K ++ [a] := by
  induction K using dedupFirst.induct with
  | case1 => intro _; simp [dedupFirst]
  | case2 b bs ih =>
    intro h
    have hab : ¬ (a = b) := fun hc => h (hc ▸ List.mem_cons_self b bs)
    have hnb : a ∉ bs.filter fun x => decide ¬ (x = b) := by
      intro hc
      exact h (List.mem_cons_of_mem _ (List.mem_filter.mp hc).1)
    simp only [List.cons_append, dedupFirst, List.filter_append]
    rw [show ([a].filter fun x => decide ¬ (x = b)) = [a] by simp [hab]]
    rw [ih hnb]

theorem foldl_mergeChunk_agent (xs : List Chunk) :
    ∀ (s : Chunk) (a : Option String), s.agent = a → (∀ c ∈ xs, c.agent = a) →
      (xs.foldl mergeChunk s).agent = a := by
  induction xs with
  | nil => intro s a hs _; simpa using hs
  | cons x xs ih =>
    intro s a hs hall
    apply ih
    · have hx : x.agent = a := hall x (List.mem_cons_self x xs)
      calc (mergeChunk s x).agent = ov x.agent s.agent := rfl
        _ = ov a a := by rw [hx, hs]
        _ = a := ov_self a
    · exact fun c hc => hall c (List.mem_cons_of_mem _ hc)

theorem merge1_agent (l : List Chunk) (a : Option String) (hne : l ≠ [])
    (hall : ∀ c ∈ l, c.agent = a) : (merge1 l).agent = a := by
  cases l with
  | nil => exact absurd rfl hne
  | cons c cs =>
    exact foldl_mergeChunk_agent cs c a (hall c (List.mem_cons_self c cs))
      (fun d hd => hall d (List.mem_cons_of_mem _ hd))

theorem filterKey_append (cs ds : List Chunk) (a : Option String) :
    filterKey (cs ++ ds) a = filterKey cs a ++ filterKey ds a := by
  simp [filterKey, List.filter_append]

theorem mem_filterKey_agent {c : Chunk} {cs : List Chunk} {a : Option String}
    (h : c ∈ filterKey cs a) : c.agent = a := by
  have h2 := (List.mem_filter.mp h).2
  simpa using h2

theorem filterKey_ne_nil (cs : List Chunk) {a : Option String}
    (h : a ∈ cs.map fun c => c.agent) : filterKey cs a ≠ [] := by
  rcases List.mem_map.mp h with ⟨c, hc, hca⟩
  intro hnil
  have hmem : c ∈ filterKey cs a := by
    simp [filterKey, List.mem_filter, hc, hca]
  rw [hnil] at hmem
  exact (List.not_mem_nil c) hmem

theorem filterKey_nil_of_not_mem (cs : List Chunk) {a : Option String}
    (h : a ∉ cs.map fun c => c.agent) : filterKey cs a = [] := by
  apply List.filter_eq_nil_iff.mpr
  intro c hc
  simp only [decide_eq_true_eq]
  intro hca
  exact h (List.mem_map.mpr ⟨c, hc, hca⟩)

theorem filterKey_singleton (c : Chunk) (x : Option String) :
    filterKey [c] x = if c.agent = x then [c] else [] := by
  by_cases h : c.agent = x <;> simp [filterKey, h]

theorem merge1_append (l : List Chunk) (c : Chunk) (h : l ≠ []) :
    merge1 (l ++ [c]) = mergeChunk (merge1 l) c := by
  cases l with
  | nil => exact absurd rfl h
  | cons x xs => simp [merge1, List.foldl_append]

theorem canonicalSteps_agent {s : Chunk} {cs : List Chunk}
    (h : s ∈ canonicalSteps cs) : s.agent ∈ cs.map fun c => c.agent := by
  rcases List.mem_map.mp h with ⟨x, hx, hsx⟩
  have hxK : x ∈ cs.map fun c => c.agent := mem_dedupFirst.mp hx
  have hsa : s.agent = x := by
    rw [← hsx]
    exact merge1_agent _ x (filterKey_ne_nil cs hxK) (fun d hd => mem_filterKey_agent hd)
  rwa [hsa]

/-- The shared step-update reducer, folded over any event list, yields the
canonical per-agent table: one merged entry per distinct agent key, in
first-seen order. -/
theorem foldSteps_canonical (cs : List Chunk) : foldSteps cs = canonicalSteps cs := by
  induction cs using List.reverseRecOn with
  | nil => simp [foldSteps, canonicalSteps, dedupFirst]
  | append_singleton cs c ih =>
    have hfold : foldSteps (cs ++ [c]) = updateSteps (foldSteps cs) c := by
      simp [foldSteps, List.foldl_append]
    rw [hfold, ih]
    have hkeys : (cs ++ [c]).map (fun d => d.agent)
        = (cs.map fun d => d.agent) ++ [c.agent] := by simp
    by_cases hmem : c.agent ∈ cs.map fun d => d.agent
    · -- the agent has been seen: in-place merge on both sides
      have hentry : merge1 (filterKey cs c.agent) ∈ canonicalSteps cs :=
        List.mem_map.mpr ⟨c.agent, mem_dedupFirst.mpr hmem, rfl⟩
      have hagent : (merge1 (filterKey cs c.agent)).agent = c.agent :=
        merge1_agent _ _ (filterKey_ne_nil cs hmem) (fun d hd => mem_filterKey_agent hd)
      have hex : ∃ s ∈ canonicalSteps cs, s.agent = c.agent :=
        ⟨merge1 (filterKey cs c.agent), hentry, hagent⟩
      rw [updateSteps, if_pos hex]
      unfold canonicalSteps
      rw [hkeys, dedupFirst_append_mem _ _ hmem, List.map_map]
      apply List.map_congr_left
      intro x hxd
      have hxK : x ∈ cs.map fun d => d.agent := mem_dedupFirst.mp hxd
      have hxa : (merge1 (filterKey cs x)).agent = x :=
        merge1_agent _ _ (filterKey_ne_nil cs hxK) (fun d hd => mem_filterKey_agent hd)
      by_cases hxc : x = c.agent
      · subst hxc
        simp only [Function.comp_apply]
        rw [if_pos hxa, filterKey_append, filterKey_singleton, if_pos rfl,
          merge1_append _ _ (filterKey_ne_nil cs hxK)]
      · simp only [Function.comp_apply]
        rw [if_neg (fun hcond => hxc (hxa.symm.trans hcond)), filterKey_append,
          filterKey_singleton, if_neg (fun hc => hxc hc.symm), List.append_nil]
    · -- a fresh agent: appended on both sides
      have hnex : ¬ ∃ s ∈ canonicalSteps cs, s.agent = c.agent := by
        rintro ⟨s, hs, hsa⟩
        exact hmem (hsa ▸ canonicalSteps_agent hs)
      rw [updateSteps, if_neg hnex]
      unfold canonicalSteps
      rw [hkeys, dedupFirst_append_not_mem _ _ hmem, List.map_append]
      congr 1
      · apply List.map_congr_left
        intro x hxd
        have hxK : x ∈ cs.map fun d => d.agent := mem_dedupFirst.mp hxd
        have hxc : ¬ (c.agent = x) := fun hc => hmem (hc ▸ hxK)
        rw [filterKey_append, filterKey_singleton, if_neg hxc, List.append_nil]
      · rw [List.map_singleton, filterKey_append, filterKey_singleton, if_pos rfl,
          filterKey_nil_of_not_mem cs hmem]
        rfl

/-- Message role, from the `Message` interface in use-chat.ts. -/
inductive Role where
  | user
  | assistant
deriving DecidableEq, Repr

/-- A chat message as the hooks build it.  The clock-derived `id` and
`timestamp` fields are environment input and omitted; the claims speak only
about the fields below.  `executionTrace` and `processingTime` are optional
because the socket dispatcher builds messages without an `executionTrace`
key and with whatever `processing_time_ms` the payload carried. -/
structure Message where
  role : Role
  content : String
  data : Option Chunk := none
  executionTrace : Option (List Chunk) := none
  processingTime : Option Nat := none
deriving DecidableEq, Repr

/-- JavaScript truthiness of `chunk.agent` (use-chat.ts line 70): present
and a nonempty string. -/
def agentTruthy (c : Chunk) : Bool :=
  match c.agent with
  | some s => decide ¬ (s = "")
  | none => false

/-- JavaScript truthiness of `chunk.conversation_id` (use-chat.ts line 65). -/
def convTruthy (c : Chunk) : Bool :=
  match c.conversation_id with
  | some s => decide ¬ (s = "")
  | none => false

/-- JavaScript truthiness of `chunk.processing_time_ms` (use-chat.ts
line 93): present and nonzero. -/
def ptTruthy (c : Chunk) : Bool :=
  match c.processing_time_ms with
  | some n => decide ¬ (n = 0)
  | none => false

/-- The mutable state of one `useChat.sendMessage` turn: the local
accumulator variables of the for-await loop (use-chat.ts lines 52-56)
together with the `currentSteps` React state the loop writes. -/
structure HttpTurnState where
  assistantContent : String := ""
  responseData : Option Chunk := none
  executionTrace : List Chunk := []
  processingTime : Nat := 0
  newConversationId : Option String := none
  currentSteps : List Chunk := []
deriving DecidableEq, Repr

/-- One iteration of the for-await loop body of `useChat.sendMessage`
(use-chat.ts lines 63-96).  The four `if` statements of the body read and
write disjoint pieces of state, so they are transcribed field-wise. -/
def httpApplyChunk (st : HttpTurnState) (c : Chunk) : HttpTurnState where
  newConversationId :=
    if convTruthy c ∧ st.newConversationId = none then c.conversation_id
    else st.newConversationId
  currentSteps :=
    if agentTruthy c then updateSteps st.currentSteps c else st.currentSteps
  executionTrace :=
    if agentTruthy c then st.executionTrace ++ [c] else st.executionTrace
  assistantContent :=
    if c.content.isSome then c.content.getD "" else st.assistantContent
  responseData :=
    if c.response_type.isSome then some c else st.responseData
  processingTime :=
    if ptTruthy c then c.processing_time_ms.getD 0 else st.processingTime

/-- Replay of the whole chunk stream through the loop body. -/
def httpFoldChunks (st : HttpTurnState) (cs : List Chunk) : HttpTurnState :=
  cs.foldl httpApplyChunk st

/-- The assistant message built after the loop (use-chat.ts lines 99-107);
`assistantContent \x7c\x7c ...` falls back to the placeholder text on the
empty string. -/
def httpFinishMessage (st : HttpTurnState) : Message where
  role := Role.assistant
  content :=
    if st.assistantContent = "" then "I processed your request."
    else st.assistantContent
  data := st.responseData
  executionTrace := some st.executionTrace
  processingTime := some st.processingTime

/-- How a chunked HTTP stream terminates: `done` from the reader without a
transport failure, or a rejected read / thrown fetch error. -/
inductive StreamEnd where
  | closed
  | errored
deriving DecidableEq, Repr

/-- Observable outcome of one `useChat.sendMessage` call: the assistant
messages appended, whether `onError` fired and the error was rethrown
(use-chat.ts lines 110-113), and the `isLoading` / `currentSteps` state
left by the `finally` block (lines 114-117). -/
structure SendOutcome where
  appended : List Message
  erroredOut : Bool
  isLoading : Bool
  currentSteps : List Chunk
deriving DecidableEq, Repr

/-- Replay of one whole `useChat.sendMessage` turn over the chunks the
stream delivered before it ended, together with how it ended.  On a clean
close the assistant message is appended; on a transport error the catch
block surfaces the error and no assistant message is appended; the
`finally` block always clears the loading flag and the step list. -/
def sendMessageRun (cs : List Chunk) (e : StreamEnd) : SendOutcome :=
  let st := httpFoldChunks {} cs
  match e with
  | StreamEnd.closed =>
      { appended := [httpFinishMessage st], erroredOut := false,
        isLoading := false, currentSteps := [] }
  | StreamEnd.errored =>
      { appended := [], erroredOut := true,
        isLoading := false, currentSteps := [] }

/-- A parsed WebSocket envelope, dispatched on its `type` discriminator
(use-chat.ts lines 172-208); `malformed` stands for a frame on which
`JSON.parse` threw (caught at lines 209-211). -/
inductive WsMsg where
  | ack
  | step (d : Chunk)
  | response (message : String) (d : Option Chunk) (processing_time_ms : Option Nat)
  | error (message : String)
  | malformed
deriving DecidableEq, Repr

/-- The React state of `useWebSocketChat`. -/
structure WsState where
  messages : List Message := []
  isConnected : Bool := false
  isLoading : Bool := false
  currentSteps : List Chunk := []
deriving DecidableEq, Repr

/-- The `ws.onmessage` handler of `useWebSocketChat` (use-chat.ts lines
168-212).  Note the `response` case appends a message without an
`executionTrace` key. -/
def wsOnMessage (st : WsState) (m : WsMsg) : WsState :=
  match m with
  | WsMsg.ack => st
  | WsMsg.step d => { st with currentSteps := updateSteps st.currentSteps d }
  | WsMsg.response msg d pt =>
      { st with
        messages := st.messages ++
          [{ role := Role.assistant, content := msg, data := d,
             processingTime := pt }],
        isLoading := false, currentSteps := [] }
  | WsMsg.error _ => { st with isLoading := false, currentSteps := [] }
  | WsMsg.malformed => st

/-- The `ws.onclose` handler of `useWebSocketChat` (use-chat.ts lines
164-166): it only clears the connected flag. -/
def wsOnClose (st : WsState) : WsState :=
  { st with isConnected := false }

/-- A step event of the agent pipeline (spec.md section 3, StepEvent). -/
structure StepEvent where
  agent : String
  status : Status
  thinking : String
  output_summary : String
deriving DecidableEq, Repr

/-- The optional structured data block of a terminal payload (spec.md
section 3, TurnResult). -/
structure DataBlock where
  response_type : RespType
  content : String
  metadata : List (String × String)
deriving DecidableEq, Repr

/-- The terminal payload of one turn (spec.md section 3, TurnResult). -/
structure TurnResult where
  content : String
  data : Option DataBlock := none
  processing_time_ms : Nat := 0
deriving DecidableEq, Repr

/-- Modelled from the spec: the JSON object the backend Stream Multiplexer
(not under src/) serializes for one StepEvent; the client sniffs exactly
these keys. -/
def stepChunk (e : StepEvent) : Chunk where
  agent := some e.agent
  status := some e.status
  thinking := some e.thinking
  output_summary := some e.output_summary

/-- Modelled from the spec: the JSON object for a structured data block
(`response_type`, `content`, `metadata`, spec.md sections 3 and 6). -/
def dataChunk (d : DataBlock) : Chunk where
  response_type := some d.response_type
  content := some d.content
  metadata := some d.metadata

/-- Modelled from the spec: the chunked-HTTP serialization of the terminal
payload emitted by the backend (not under src/): the optional data block as
its own tagged event, then the closing event carrying the final text and
the processing time (spec.md sections 4.2 and 6). -/
def resultChunks (r : TurnResult) : List Chunk :=
  (match r.data with
   | some d => [dataChunk d]
   | none => []) ++
  [{ content := some r.content, processing_time_ms := some r.processing_time_ms }]

/-- Modelled from the spec: a whole logical event sequence (StepEvent*,
TurnResult) on the chunked HTTP transport. -/
def httpEncodeTurn (es : List StepEvent) (r : TurnResult) : List Chunk :=
  es.map stepChunk ++ resultChunks r

/-- Modelled from the spec: the same logical event sequence on the socket
transport, as `step` envelopes followed by one `response` envelope whose
payload carries `message`, `data` and `processing_time_ms` (spec.md
sections 4.3 and 6). -/
def wsEncodeTurn (es : List StepEvent) (r : TurnResult) : List WsMsg :=
  es.map (fun e => WsMsg.step (stepChunk e)) ++
  [WsMsg.response r.content (r.data.map dataChunk) (some r.processing_time_ms)]

/-- The client state either transport leaves behind after one turn: the
per-agent step list at the moment the terminal event is processed, the step
list and loading flag after the turn, and the assistant message produced. -/
structure TurnView where
  stepsAtTerminal : List Chunk
  finalSteps : List Chunk
  isLoading : Bool
  message : Message
deriving DecidableEq, Repr

/-- Replay of one turn through the HTTP variant (`useChat.sendMessage`). -/
def httpTurnView (es : List StepEvent) (r : TurnResult) : TurnView :=
  let st := httpFoldChunks {} (httpEncodeTurn es r)
  { stepsAtTerminal := st.currentSteps, finalSteps := [], isLoading := false,
    message := httpFinishMessage st }

/-- Replay of the semantically identical turn through the socket variant
(`useWebSocketChat`), starting from a connected, loading state. -/
def wsTurnView (es : List StepEvent) (r : TurnResult) : TurnView :=
  let st1 := (es.map fun e => WsMsg.step (stepChunk e)).foldl wsOnMessage
    { isConnected := true, isLoading := true }
  let st2 := wsOnMessage st1
    (WsMsg.response r.content (r.data.map dataChunk) (some r.processing_time_ms))
  { stepsAtTerminal := st1.currentSteps, finalSteps := st2.currentSteps,
    isLoading := st2.isLoading,
    message := (st2.messages.getLast?).getD { role := Role.assistant, content := "" } }

theorem httpFold_append (st : HttpTurnState) (cs ds : List Chunk) :
    httpFoldChunks st (cs ++ ds) = httpFoldChunks (httpFoldChunks st cs) ds := by
  simp [httpFoldChunks, List.foldl_append]

theorem httpFold_currentSteps (cs : List Chunk) :
    ∀ st : HttpTurnState, (httpFoldChunks st cs).currentSteps
      = cs.foldl (fun l c => if agentTruthy c then updateSteps l c else l)
          st.currentSteps := by
  induction cs with
  | nil => intro st; rfl
  | cons c cs ih =>
    intro st
    have h1 : httpFoldChunks st (c :: cs) = httpFoldChunks (httpApplyChunk st c) cs := rfl
    rw [h1, ih]
    rfl

theorem httpFold_trace (cs : List Chunk) :
    ∀ st : HttpTurnState, (httpFoldChunks st cs).executionTrace
      = st.executionTrace ++ cs.filter agentTruthy := by
  induction cs with
  | nil => intro st; simp [httpFoldChunks]
  | cons c cs ih =>
    intro st
    have h1 : httpFoldChunks st (c :: cs) = httpFoldChunks (httpApplyChunk st c) cs := rfl
    rw [h1, ih, List.filter_cons]
    by_cases h : agentTruthy c
    · simp [httpApplyChunk, h]
    · simp [httpApplyChunk, h]

theorem httpFold_content (cs : List Chunk) (h : ∀ c ∈ cs, c.content = none) :
    ∀ st : HttpTurnState, (httpFoldChunks st cs).assistantContent
      = st.assistantContent := by
  induction cs with
  | nil => intro st; rfl
  | cons c cs ih =>
    intro st
    have h1 : httpFoldChunks st (c :: cs) = httpFoldChunks (httpApplyChunk st c) cs := rfl
    rw [h1, ih (fun d hd => h d (List.mem_cons_of_mem _ hd))]
    simp [httpApplyChunk, h c (List.mem_cons_self c cs)]

theorem httpFold_responseData (cs : List Chunk) (h : ∀ c ∈ cs, c.response_type = none) :
    ∀ st : HttpTurnState, (httpFoldChunks st cs).responseData = st.responseData := by
  induction cs with
  | nil => intro st; rfl
  | cons c cs ih =>
    intro st
    have h1 : httpFoldChunks st (c :: cs) = httpFoldChunks (httpApplyChunk st c) cs := rfl
    rw [h1, ih (fun d hd => h d (List.mem_cons_of_mem _ hd))]
    simp [httpApplyChunk, h c (List.mem_cons_self c cs)]

theorem httpFold_processingTime (cs : List Chunk)
    (h : ∀ c ∈ cs, c.processing_time_ms = none) :
    ∀ st : HttpTurnState, (httpFoldChunks st cs).processingTime
      = st.processingTime := by
  induction cs with
  | nil => intro st; rfl
  | cons c cs ih =>
    intro st
    have h1 : httpFoldChunks st (c :: cs) = httpFoldChunks (httpApplyChunk st c) cs := rfl
    rw [h1, ih (fun d hd => h d (List.mem_cons_of_mem _ hd))]
    simp [httpApplyChunk, ptTruthy, h c (List.mem_cons_self c cs)]

theorem condFold_eq_foldl (cs : List Chunk) (h : ∀ c ∈ cs, agentTruthy c = true) :
    ∀ l : List Chunk,
      cs.foldl (fun l c => if agentTruthy c then updateSteps l c else l) l
        = cs.foldl updateSteps l := by
  induction cs with
  | nil => intro l; rfl
  | cons c cs ih =>
    intro l
    simp only [List.foldl_cons, h c (List.mem_cons_self c cs), if_true]
    exact ih (fun d hd => h d (List.mem_cons_of_mem _ hd)) _

theorem stepChunk_fields (e : StepEvent) :
    (stepChunk e).content = none ∧ (stepChunk e).response_type = none ∧
    (stepChunk e).processing_time_ms = none ∧ (stepChunk e).conversation_id = none :=
  ⟨rfl, rfl, rfl, rfl⟩

theorem stepChunk_agentTruthy {e : StepEvent} (h : ¬ (e.agent = "")) :
    agentTruthy (stepChunk e) = true := by
  simp [agentTruthy, stepChunk, h]

/-- Field-wise evaluation of the HTTP loop state over one whole encoded
turn. -/
theorem httpEncode_state (es : List StepEvent) (r : TurnResult) :
    (httpFoldChunks {} (httpEncodeTurn es r)).currentSteps
      = (es.map stepChunk).foldl
          (fun l c => if agentTruthy c then updateSteps l c else l) [] ∧
    (httpFoldChunks {} (httpEncodeTurn es r)).executionTrace
      = (es.map stepChunk).filter agentTruthy ∧
    (httpFoldChunks {} (httpEncodeTurn es r)).assistantContent = r.content ∧
    (httpFoldChunks {} (httpEncodeTurn es r)).responseData = r.data.map dataChunk ∧
    (httpFoldChunks {} (httpEncodeTurn es r)).processingTime
      = r.processing_time_ms := by
  have hc : ∀ c ∈ es.map stepChunk, c.content = none := by
    intro c hc
    rcases List.mem_map.mp hc with ⟨e, _, rfl⟩
    rfl
  have hr : ∀ c ∈ es.map stepChunk, c.response_type = none := by
    intro c hc
    rcases List.mem_map.mp hc with ⟨e, _, rfl⟩
    rfl
  have hp : ∀ c ∈ es.map stepChunk, c.processing_time_ms = none := by
    intro c hc
    rcases List.mem_map.mp hc with ⟨e, _, rfl⟩
    rfl
  rw [httpEncodeTurn, httpFold_append]
  set st1 := httpFoldChunks {} (es.map stepChunk) with hst1
  have h1 : st1.currentSteps = (es.map stepChunk).foldl
      (fun l c => if agentTruthy c then updateSteps l c else l) [] := by
    rw [hst1, httpFold_currentSteps]
  have h2 : st1.executionTrace = (es.map stepChunk).filter agentTruthy := by
    rw [hst1, httpFold_trace]
    rfl
  have h3 : st1.assistantContent = "" := by
    rw [hst1, httpFold_content _ hc]
  have h4 : st1.responseData = none := by
    rw [hst1, httpFold_responseData _ hr]
  have h5 : st1.processingTime = 0 := by
    rw [hst1, httpFold_processingTime _ hp]
  rcases r with ⟨rc, rd, rpt⟩
  cases rd with
  | none =>
    refine ⟨?_, ?_, ?_, ?_, ?_⟩ <;>
      simp only [resultChunks, List.nil_append, httpFoldChunks, List.foldl_cons,
        List.foldl_nil] <;>
      simp only [httpApplyChunk, agentTruthy, ptTruthy, Option.isSome_some,
        Option.isSome_none, Option.getD_some] <;>
      simp [h1, h2, h3, h4, h5]
    all_goals first
      | (exact fun h => h.symm)
      | rfl
      | (simp [agentTruthy])
  | some d =>
    refine ⟨?_, ?_, ?_, ?_, ?_⟩ <;>
      simp only [resultChunks, httpFoldChunks, List.foldl_cons, List.foldl_nil,
        List.cons_append, List.nil_append] <;>
      simp only [httpApplyChunk, dataChunk, agentTruthy, ptTruthy,
        Option.isSome_some, Option.isSome_none, Option.getD_some] <;>
      simp [h1, h2, h3, h4, h5]
    all_goals first
      | (exact fun h => h.symm)
      | rfl
      | (simp [agentTruthy])

theorem wsFold_steps (es : List StepEvent) :
    ∀ st : WsState, (es.map fun e => WsMsg.step (stepChunk e)).foldl wsOnMessage st
      = { st with currentSteps :=
            (es.map stepChunk).foldl updateSteps st.currentSteps } := by
  induction es with
  | nil => intro st; rfl
  | cons e es ih =>
    intro st
    simp only [List.map_cons, List.foldl_cons]
    rw [ih]
    rfl

/-- The per-agent step list the HTTP variant holds when the terminal event
arrives is the plain reducer fold of the step events. -/
theorem httpTurnView_steps (es : List StepEvent) (r : TurnResult)
    (hagents : ∀ e ∈ es, ¬ (e.agent = "")) :
    (httpTurnView es r).stepsAtTerminal = foldSteps (es.map stepChunk) := by
  have hall : ∀ c ∈ es.map stepChunk, agentTruthy c = true := by
    intro c hc
    rcases List.mem_map.mp hc with ⟨e, he, rfl⟩
    exact stepChunk_agentTruthy (hagents e he)
  have h := (httpEncode_state es r).1
  show (httpFoldChunks {} (httpEncodeTurn es r)).currentSteps
    = foldSteps (es.map stepChunk)
  rw [h, condFold_eq_foldl _ hall]
  rfl

/-- Full evaluation of the socket variant over one encoded turn. -/
theorem wsTurnView_eval (es : List StepEvent) (r : TurnResult) :
    wsTurnView es r =
      { stepsAtTerminal := foldSteps (es.map stepChunk), finalSteps := [],
        isLoading := false,
        message := { role := Role.assistant, content := r.content,
                     data := r.data.map dataChunk, executionTrace := none,
                     processingTime := some r.processing_time_ms } } := by
  unfold wsTurnView
  rw [wsFold_steps]
  rfl

theorem canonicalSteps_agents (cs : List Chunk) :
    (canonicalSteps cs).map (fun c => c.agent)
      = dedupFirst (cs.map fun c => c.agent) := by
  unfold canonicalSteps
  rw [List.map_map]
  conv_rhs => rw [← List.map_id (dedupFirst (cs.map fun c => c.agent))]
  apply List.map_congr_left
  intro x hx
  simp only [Function.comp_apply, id_eq]
  exact merge1_agent _ _ (filterKey_ne_nil cs (mem_dedupFirst.mp hx))
    (fun d hd => mem_filterKey_agent hd)

/-- A small concrete turn used as input for witnesses and counterexamples:
two agents, the first one updated twice. -/
def sampleSteps : List StepEvent :=
  [{ agent := "switchboard", status := Status.pending, thinking := "route",
     output_summary := "" },
   { agent := "librarian", status := Status.running, thinking := "search",
     output_summary := "" },
   { agent := "switchboard", status := Status.completed, thinking := "done",
     output_summary := "ok" }]

/-- A small concrete terminal payload for witnesses and counterexamples. -/
def sampleResult : TurnResult :=
  { content := "pong", data := none, processing_time_ms := 7 }

/-- C1: the claim states that replaying the same logical event sequence
through the HTTP chunked-stream reducer and through the WebSocket
dispatcher produces identical final client state, including the final
assistant message execution trace.  This is false at the concrete turn
below: the HTTP loop records the step events in `executionTrace` while the
socket `response` handler builds the assistant message without that field. -/
theorem transport_equivalence_counterexample :
    (httpTurnView sampleSteps sampleResult).message
      ≠ (wsTurnView sampleSteps sampleResult).message := by
  decide

/-- C1 (amended): for every logical event sequence with nonempty agent
names and nonempty terminal text, both transports produce the same
per-agent step list, final step list, loading flag, and assistant message
content, data and processing time; only the execution trace differs (the
HTTP variant records it, the socket variant leaves it unset). -/
theorem transport_equivalence_amended (es : List StepEvent) (r : TurnResult)
    (hagents : ∀ e ∈ es, ¬ (e.agent = "")) (hcontent : ¬ (r.content = "")) :
    (httpTurnView es r).stepsAtTerminal = (wsTurnView es r).stepsAtTerminal ∧
    (httpTurnView es r).finalSteps = (wsTurnView es r).finalSteps ∧
    (httpTurnView es r).isLoading = (wsTurnView es r).isLoading ∧
    (httpTurnView es r).message.content = (wsTurnView es r).message.content ∧
    (httpTurnView es r).message.data = (wsTurnView es r).message.data ∧
    (httpTurnView es r).message.processingTime
      = (wsTurnView es r).message.processingTime := by
  have hws := wsTurnView_eval es r
  have hsteps := httpTurnView_steps es r hagents
  obtain ⟨h1, h2, h3, h4, h5⟩ := httpEncode_state es r
  refine ⟨?_, ?_, ?_, ?_, ?_, ?_⟩
  · rw [hsteps, hws]
  · rw [hws]; rfl
  · rw [hws]; rfl
  · rw [hws]
    show (httpFinishMessage (httpFoldChunks {} (httpEncodeTurn es r))).content
      = r.content
    simp [httpFinishMessage, h3, hcontent]
  · rw [hws]
    show (httpFinishMessage (httpFoldChunks {} (httpEncodeTurn es r))).data
      = r.data.map dataChunk
    simp [httpFinishMessage, h4]
  · rw [hws]
    show (httpFinishMessage (httpFoldChunks {} (httpEncodeTurn es r))).processingTime
      = some r.processing_time_ms
    simp [httpFinishMessage, h5]

/-- Witness for C1 (amended) at the concrete sample turn. -/
theorem transport_equivalence_amended_witness :
    (httpTurnView sampleSteps sampleResult).stepsAtTerminal
        = (wsTurnView sampleSteps sampleResult).stepsAtTerminal ∧
    (httpTurnView sampleSteps sampleResult).finalSteps
        = (wsTurnView sampleSteps sampleResult).finalSteps ∧
    (httpTurnView sampleSteps sampleResult).isLoading
        = (wsTurnView sampleSteps sampleResult).isLoading ∧
    (httpTurnView sampleSteps sampleResult).message.content
        = (wsTurnView sampleSteps sampleResult).message.content ∧
    (httpTurnView sampleSteps sampleResult).message.data
        = (wsTurnView sampleSteps sampleResult).message.data ∧
    (httpTurnView sampleSteps sampleResult).message.processingTime
        = (wsTurnView sampleSteps sampleResult).message.processingTime :=
  transport_equivalence_amended sampleSteps sampleResult (by decide) (by decide)

/-- C2: for every valid event sequence (StepEvent*, TurnResult) with
truthy agent names, the reducer step list at the terminal event is exactly
the canonical per-agent table (one entry per distinct agent, at its
first-seen position, holding the shallow merge of that agent's events,
later events over earlier ones), and its agent keys are pairwise
distinct. -/
theorem reducer_per_agent_map (es : List StepEvent) (r : TurnResult)
    (hagents : ∀ e ∈ es, ¬ (e.agent = "")) :
    (httpTurnView es r).stepsAtTerminal = canonicalSteps (es.map stepChunk) ∧
    (((httpTurnView es r).stepsAtTerminal).map fun c => c.agent).Nodup := by
  have h := httpTurnView_steps es r hagents
  constructor
  · rw [h, foldSteps_canonical]
  · rw [h, foldSteps_canonical, canonicalSteps_agents]
    exact nodup_dedupFirst _

/-- Witness for C2 at the concrete sample turn. -/
theorem reducer_per_agent_map_witness :
    (httpTurnView sampleSteps sampleResult).stepsAtTerminal
        = canonicalSteps (sampleSteps.map stepChunk) ∧
    (((httpTurnView sampleSteps sampleResult).stepsAtTerminal).map
        fun c => c.agent).Nodup :=
  reducer_per_agent_map sampleSteps sampleResult (by decide)

/-- The `buffer.split('\n')` primitive of api.ts line 100, presented as the
first line paired with the remaining lines (so the result is never empty,
matching the behavior of the JavaScript `split`). -/
def splitAux : List Char → List Char × List (List Char)
  | [] => ([], [])
  | c :: cs =>
    if c = '\n' then ([], (splitAux cs).1 :: (splitAux cs).2)
    else (c :: (splitAux cs).1, (splitAux cs).2)

/-- All lines of a character stream, split at every newline. -/
def splitLines (s : List Char) : List (List Char) :=
  (splitAux s).1 :: (splitAux s).2

/-- The complete lines of a stream: everything before the trailing
(possibly incomplete) line (api.ts line 101, `lines` after the `pop`). -/
def initSegs (s : List Char) : List (List Char) := (splitLines s).dropLast

/-- The trailing line after the last newline (api.ts line 101, the popped
line kept as the new buffer). -/
def lastSeg (s : List Char) : List Char :=
  ((splitAux s).2).getLastD (splitAux s).1

/-- How the line structure of a concatenation arises from the line
structures of the two halves: the last line of the left half glues onto
the first line of the right half. -/
def combineSplit (p q : List Char × List (List Char)) :
    List Char × List (List Char) :=
  match p.2 with
  | [] => (p.1 ++ q.1, q.2)
  | t :: ts => (p.1, (t :: ts).dropLast ++ ((t :: ts).getLastD [] ++ q.1) :: q.2)

theorem splitAux_append (a b : List Char) :
    splitAux (a ++ b) = combineSplit (splitAux a) (splitAux b) := by
  induction a with
  | nil =>
    simp [splitAux, combineSplit]
  | cons c a ih =>
    rcases hpa : splitAux a with ⟨ha, ta⟩
    rcases hqb : splitAux b with ⟨hb, tb⟩
    rw [hpa, hqb] at ih
    by_cases hc : c = '\n'
    · subst hc
      cases ta with
      | nil => simp [splitAux, ih, hpa, combineSplit]
      | cons t ts => simp [splitAux, ih, hpa, combineSplit]
    · cases ta with
      | nil => simp [splitAux, ih, hpa, hc, combineSplit]
      | cons t ts => simp [splitAux, ih, hpa, hc, combineSplit]

theorem splitAux_no_newline (s : List Char) (h : '\n' ∉ s) :
    splitAux s = (s, []) := by
  induction s with
  | nil => rfl
  | cons c cs ih =>
    have hc : ¬ (c = '\n') := fun hcc => h (hcc ▸ List.mem_cons_self c cs)
    simp [splitAux, hc, ih (fun hm => h (List.mem_cons_of_mem _ hm))]

theorem splitAux_segments_no_newline (s : List Char) :
    '\n' ∉ (splitAux s).1 ∧ ∀ l ∈ (splitAux s).2, '\n' ∉ l := by
  induction s with
  | nil => simp [splitAux]
  | cons c cs ih =>
    by_cases hc : c = '\n'
    · subst hc
      simp only [splitAux, if_pos rfl]
      refine ⟨by simp, ?_⟩
      intro l hl
      rcases List.mem_cons.mp hl with rfl | hl2
      · exact ih.1
      · exact ih.2 l hl2
    · simp only [splitAux, if_neg hc]
      refine ⟨?_, ih.2⟩
      intro hm
      rcases List.mem_cons.mp hm with heq | hm2
      · exact hc heq.symm
      · exact ih.1 hm2

theorem getLastD_mem_cons {α : Type} (l : List α) (d : α) :
    l.getLastD d ∈ d :: l := by
  induction l generalizing d with
  | nil => simp [List.getLastD]
  | cons x l ih =>
    rw [List.getLastD_cons]
    rcases List.mem_cons.mp (ih x) with h | h
    · rw [h]
      exact List.mem_cons_of_mem _ (List.mem_cons_self x l)
    · exact List.mem_cons_of_mem _ (List.mem_cons_of_mem _ h)

theorem lastSeg_no_newline (s : List Char) : '\n' ∉ lastSeg s := by
  unfold lastSeg
  rcases List.mem_cons.mp (getLastD_mem_cons (splitAux s).2 (splitAux s).1) with h | h
  · rw [h]
    exact (splitAux_segments_no_newline s).1
  · exact (splitAux_segments_no_newline s).2 _ h

theorem getLastD_append_cons {α : Type} (l1 l2 : List α) (y d : α) :
    (l1 ++ y :: l2).getLastD d = l2.getLastD y := by
  induction l1 generalizing d with
  | nil => exact List.getLastD_cons d y l2
  | cons x l1 ih =>
    rw [List.cons_append, List.getLastD_cons]
    exact ih x

/-- Holding back the trailing line as the new buffer is lossless: consuming
`a ++ b` at once gives the same complete lines and the same trailing line
as consuming `a`, keeping its trailing line, and consuming it with `b`. -/
theorem split_shift (a b : List Char) :
    initSegs (a ++ b) = initSegs a ++ initSegs (lastSeg a ++ b) ∧
    lastSeg (a ++ b) = lastSeg (lastSeg a ++ b) := by
  have hL : '\n' ∉ lastSeg a := lastSeg_no_newline a
  have hLsplit : splitAux (lastSeg a) = (lastSeg a, []) := splitAux_no_newline _ hL
  rcases hsb : splitAux b with ⟨hb, tb⟩
  have hLb : splitAux (lastSeg a ++ b) = (lastSeg a ++ hb, tb) := by
    rw [splitAux_append, hLsplit, hsb]
    rfl
  rcases hsa : splitAux a with ⟨ha, ta⟩
  have hmaster : splitAux (a ++ b) = combineSplit (ha, ta) (hb, tb) := by
    rw [splitAux_append, hsa, hsb]
  cases ta with
  | nil =>
    have hlsa : lastSeg a = ha := by
      unfold lastSeg
      rw [hsa]
      rfl
    have hm2 : splitAux (a ++ b) = (ha ++ hb, tb) := by
      rw [hmaster]
      rfl
    constructor
    · unfold initSegs splitLines
      rw [hm2, hLb, hsa, hlsa]
      simp
    · show ((splitAux (a ++ b)).2).getLastD (splitAux (a ++ b)).1
        = ((splitAux (lastSeg a ++ b)).2).getLastD (splitAux (lastSeg a ++ b)).1
      rw [hm2, hLb, hlsa]
  | cons t ts =>
    have hgl : (t :: ts).getLastD [] = lastSeg a := by
      unfold lastSeg
      rw [hsa, List.getLastD_cons, List.getLastD_cons]
    have hm2 : splitAux (a ++ b) =
        (ha, (t :: ts).dropLast ++ (lastSeg a ++ hb) :: tb) := by
      rw [hmaster]
      show (ha, (t :: ts).dropLast ++ ((t :: ts).getLastD [] ++ hb) :: tb)
        = (ha, (t :: ts).dropLast ++ (lastSeg a ++ hb) :: tb)
      rw [hgl]
    constructor
    · unfold initSegs splitLines
      rw [hm2, hLb, hsa]
      rw [← List.cons_append, List.dropLast_append_cons]
      simp
    · show ((splitAux (a ++ b)).2).getLastD (splitAux (a ++ b)).1
        = ((splitAux (lastSeg a ++ b)).2).getLastD (splitAux (lastSeg a ++ b)).1
      rw [hm2, hLb]
      exact getLastD_append_cons _ _ _ _

/-- The `line.startsWith('data:')` test of api.ts line 104. -/
def startsWithData : List Char → Bool
  | 'd' :: 'a' :: 't' :: 'a' :: ':' :: _ => true
  | _ => false

/-- Whitespace for the JavaScript `trim` on the sliced payload. -/
def isSpaceChar (c : Char) : Bool :=
  decide (c = ' ') || decide (c = '\t') || decide (c = '\n') || decide (c = '\r')

/-- The JavaScript `String.prototype.trim` on a character list. -/
def trimChars (s : List Char) : List Char :=
  ((s.dropWhile isSpaceChar).reverse.dropWhile isSpaceChar).reverse

/-- The per-line treatment of `NexusAPI.chatStream` (api.ts lines 103-111):
only lines starting with `data:` matter; the tag is sliced off, the rest
trimmed and handed to `JSON.parse` (abstracted as the payload parser `pj`);
a failed parse yields nothing and is swallowed (lines 108-110). -/
def parseSSELine (pj : List Char → Option Chunk) (line : List Char) :
    Option Chunk :=
  if startsWithData line then pj (trimChars (line.drop 5)) else none

/-- The state of the read loop of `chatStream`: the pending-bytes buffer
and the events yielded so far. -/
structure FeedState where
  buffer : List Char := []
  events : List Chunk := []
deriving DecidableEq, Repr

/-- One iteration of the read loop (api.ts lines 94-113): append the chunk
to the buffer, split on newlines, hold the last (possibly incomplete) line
back as the new buffer, and parse every complete line. -/
def feedChunk (pj : List Char → Option Chunk) (st : FeedState)
    (s : List Char) : FeedState where
  buffer := lastSeg (st.buffer ++ s)
  events := st.events ++ (initSegs (st.buffer ++ s)).filterMap (parseSSELine pj)

/-- Consuming a whole chunk sequence: the buffer starts empty, and whatever
remains buffered when the reader reports done is discarded (the loop just
breaks at api.ts line 96). -/
def feedAll (pj : List Char → Option Chunk) (chunks : List (List Char)) :
    List Chunk :=
  (chunks.foldl (feedChunk pj) {}).events

theorem feedChunk_append (pj : List Char → Option Chunk) (st : FeedState)
    (a b : List Char) :
    feedChunk pj (feedChunk pj st a) b = feedChunk pj st (a ++ b) := by
  obtain ⟨hA, hB⟩ := split_shift (st.buffer ++ a) b
  unfold feedChunk
  rw [show st.buffer ++ (a ++ b) = (st.buffer ++ a) ++ b from
    (List.append_assoc _ _ _).symm]
  rw [hA, hB, List.filterMap_append, List.append_assoc]

/-- C3: feeding a serialized stream to the chunked-stream parser of
`NexusAPI.chatStream` in two chunks split at an arbitrary boundary yields
exactly the same final parsed-event sequence as feeding it whole, for every
payload parser: the trailing incomplete line is buffered across chunks. -/
theorem sse_split_safe (pj : List Char → Option Chunk) (s : List Char) (i : Nat) :
    feedAll pj [s.take i, s.drop i] = feedAll pj [s] := by
  unfold feedAll
  simp only [List.foldl_cons, List.foldl_nil]
  rw [feedChunk_append, List.take_append_drop]

/-- A stream of newline-terminated lines, as the backend would serialize
tagged events (spec.md section 6). -/
def joinLinesNL (ls : List (List Char)) : List Char :=
  ls.foldr (fun l acc => l ++ '\n' :: acc) []

theorem splitLines_joinLinesNL (ls : List (List Char))
    (h : ∀ l ∈ ls, '\n' ∉ l) :
    splitLines (joinLinesNL ls) = ls ++ [[]] := by
  induction ls with
  | nil => rfl
  | cons l rest ih =>
    have hl : '\n' ∉ l := h l (List.mem_cons_self l rest)
    have hrest := ih (fun x hx => h x (List.mem_cons_of_mem _ hx))
    have hstep : joinLinesNL (l :: rest) = l ++ '\n' :: joinLinesNL rest := rfl
    have hnl : splitAux ('\n' :: joinLinesNL rest)
        = ([], (splitAux (joinLinesNL rest)).1 :: (splitAux (joinLinesNL rest)).2) := by
      simp [splitAux]
    unfold splitLines
    rw [hstep, splitAux_append, splitAux_no_newline l hl, hnl]
    unfold splitLines at hrest
    rw [show combineSplit (l, [])
        ([], (splitAux (joinLinesNL rest)).1 :: (splitAux (joinLinesNL rest)).2)
      = (l ++ [], (splitAux (joinLinesNL rest)).1 :: (splitAux (joinLinesNL rest)).2)
      from rfl]
    rw [List.append_nil]
    rw [show ((l ++ [], (splitAux (joinLinesNL rest)).1 ::
        (splitAux (joinLinesNL rest)).2) : List Char × List (List Char)).2
      = (splitAux (joinLinesNL rest)).1 :: (splitAux (joinLinesNL rest)).2 from rfl]
    rw [hrest]
    rfl

theorem feedAll_single_lines (pj : List Char → Option Chunk)
    (ls : List (List Char)) (h : ∀ l ∈ ls, '\n' ∉ l) :
    feedAll pj [joinLinesNL ls] = ls.filterMap (parseSSELine pj) := by
  unfold feedAll
  simp only [List.foldl_cons, List.foldl_nil]
  show ([] : List Chunk) ++ (initSegs ([] ++ joinLinesNL ls)).filterMap (parseSSELine pj)
    = ls.filterMap (parseSSELine pj)
  rw [List.nil_append, List.nil_append]
  unfold initSegs
  rw [splitLines_joinLinesNL ls h, List.dropLast_concat]

/-- C6: one malformed unit in the middle of a valid sequence is dropped
silently and every other event is parsed and applied in order, in both
variants: the HTTP line parser skips the line whose payload fails to parse
(api.ts lines 108-110), and the socket dispatcher ignores a frame on which
`JSON.parse` threw (use-chat.ts lines 209-211), leaving the fold over the
remaining messages unchanged. -/
theorem malformed_unit_dropped (pj : List Char → Option Chunk)
    (good1 good2 : List (List Char)) (bad : List Char)
    (st : WsState) (ms1 ms2 : List WsMsg)
    (hnl : ∀ l ∈ good1 ++ [bad] ++ good2, '\n' ∉ l)
    (hbad : parseSSELine pj bad = none) :
    feedAll pj [joinLinesNL (good1 ++ [bad] ++ good2)]
        = good1.filterMap (parseSSELine pj) ++ good2.filterMap (parseSSELine pj) ∧
    (ms1 ++ [WsMsg.malformed] ++ ms2).foldl wsOnMessage st
        = (ms1 ++ ms2).foldl wsOnMessage st := by
  constructor
  · rw [feedAll_single_lines pj _ hnl]
    simp [List.filterMap_append, hbad]
  · rw [List.foldl_append, List.foldl_append, List.foldl_append]
    rfl

/-- A sample payload parser standing in for `JSON.parse` in witnesses: it
understands exactly one one-character payload. -/
def samplePayload : List Char → Option Chunk
  | ['p'] => some (stepChunk { agent := "switchboard", status := Status.running,
                               thinking := "", output_summary := "" })
  | _ => none

/-- Witness for C6: a stream of two well-formed lines around one malformed
line; and a socket fold with one malformed frame in the middle. -/
theorem malformed_unit_dropped_witness :
    feedAll samplePayload
        [joinLinesNL ([ "data: p".toList ] ++ [ "data: x".toList ] ++ [ "data: p".toList ])]
        = [ "data: p".toList ].filterMap (parseSSELine samplePayload)
          ++ [ "data: p".toList ].filterMap (parseSSELine samplePayload) ∧
    ([WsMsg.ack] ++ [WsMsg.malformed] ++ [WsMsg.ack]).foldl wsOnMessage {}
        = ([WsMsg.ack] ++ [WsMsg.ack]).foldl wsOnMessage {} :=
  malformed_unit_dropped samplePayload [ "data: p".toList ] [ "data: p".toList ]
    ( "data: x".toList) {} [WsMsg.ack] [WsMsg.ack] (by decide) (by decide)

/-- C4: the claim states the turn never silently completes with an empty or
placeholder assistant result when the stream ends before the terminal
TurnResult.  False: when the reader reports done with no transport error
and no terminal event was received, `useChat.sendMessage` (use-chat.ts
lines 94-109) appends the placeholder message and surfaces no error. -/
theorem abrupt_close_counterexample :
    (sendMessageRun [] StreamEnd.closed).erroredOut = false ∧
    (sendMessageRun [] StreamEnd.closed).appended
      = [{ role := Role.assistant, content := "I processed your request.",
                data := none, executionTrace := some [],
                processingTime := some 0 }] := by
  exact ⟨rfl, by decide⟩

/-- C4 (amended): a transport error (rejected fetch, non-2xx response, or a
failed read) before the terminal event is surfaced: `onError` fires and the
error is rethrown, no assistant message is appended, and the turn does not
stay loading.  A clean stream close before the terminal event, however,
completes silently with the placeholder message (see the counterexample). -/
theorem transport_error_surfaced (cs : List Chunk) :
    (sendMessageRun cs StreamEnd.errored).erroredOut = true ∧
    (sendMessageRun cs StreamEnd.errored).appended = [] ∧
    (sendMessageRun cs StreamEnd.errored).isLoading = false ∧
    (sendMessageRun cs StreamEnd.errored).currentSteps = [] :=
  ⟨rfl, rfl, rfl, rfl⟩

/-- A WebSocket hook state in the middle of a loading turn: one running
step retained, input blocked. -/
def sampleWsLoading : WsState :=
  { messages := [],
    isConnected := true,
    isLoading := true,
    currentSteps :=
      [stepChunk { agent := "switchboard", status := Status.running,
                   thinking := "", output_summary := "" }] }

/-- C5: the claim includes the WebSocket onclose among the turn
terminations that clear the loading flag and the step list.  False:
`ws.onclose` (use-chat.ts lines 164-166) only clears the connected flag;
at the concrete loading state below both isLoading and currentSteps
survive the close. -/
theorem ws_onclose_counterexample :
    (wsOnClose sampleWsLoading).isLoading = true ∧
    (wsOnClose sampleWsLoading).currentSteps ≠ [] := by
  exact ⟨rfl, by decide⟩

/-- C5 (amended): after a turn terminates through the HTTP variant (clean
close or thrown error: the finally block of use-chat.ts lines 114-117) or
through a socket `response` or `error` envelope, the loading flag is false
and the step list is cleared; the socket onclose, however, leaves both
untouched and only clears the connected flag. -/
theorem turn_end_clears_loading (cs : List Chunk) (e : StreamEnd) (st : WsState)
    (msg : String) (d : Option Chunk) (pt : Option Nat) :
    (sendMessageRun cs e).isLoading = false ∧
    (sendMessageRun cs e).currentSteps = [] ∧
    (wsOnMessage st (WsMsg.response msg d pt)).isLoading = false ∧
    (wsOnMessage st (WsMsg.response msg d pt)).currentSteps = [] ∧
    (wsOnMessage st (WsMsg.error msg)).isLoading = false ∧
    (wsOnMessage st (WsMsg.error msg)).currentSteps = [] ∧
    (wsOnClose st).isLoading = st.isLoading ∧
    (wsOnClose st).currentSteps = st.currentSteps := by
  cases e <;> exact ⟨rfl, rfl, rfl, rfl, rfl, rfl, rfl, rfl⟩

/-- The status the progress UI displays for one agent: the status field of
the unique step-list entry whose agent key matches. -/
def displayedStatus (l : List Chunk) (a : String) : Option Status :=
  match l.find? fun c => decide (c.agent = some a) with
  | some c => c.status
  | none => none

/-- Last present status of an event list (the result of repeatedly
spreading status-bearing events over one entry). -/
def statusFold (l : List Chunk) : Option Status :=
  l.foldl (fun acc c => ov c.status acc) none

/-- Completed and failed are the terminal lifecycle states. -/
def isTerminal : Status → Bool
  | Status.completed => true
  | Status.failed => true
  | _ => false

def isTerminalOpt : Option Status → Bool
  | some s => isTerminal s
  | none => false

/-- An event carries a terminal status. -/
def hasTerminal (c : Chunk) : Bool :=
  match c.status with
  | some s => isTerminal s
  | none => false

/-- An event does not regress a terminal status: its status key is either
absent or terminal. -/
def noRegress (c : Chunk) : Bool :=
  match c.status with
  | some s => isTerminal s
  | none => true

/-- The emitter-side monotonic lifecycle invariant of spec.md section 3:
once an event for an agent is terminal, every later event for the same
agent key is terminal (or carries no status). -/
def MonotoneEvents (cs : List Chunk) : Prop :=
  List.Pairwise
    (fun c d => c.agent = d.agent → hasTerminal c = true → noRegress d = true) cs

@[simp] theorem ov_none_right {α : Type} (o : Option α) : ov o none = o := by
  cases o <;> rfl

theorem find_dedup_self {y : Option String} {L : List (Option String)}
    (hmem : y ∈ L) : L.find? (fun x => decide (x = y)) = some y := by
  induction L with
  | nil => simp at hmem
  | cons x L ih =>
    by_cases hxy : x = y
    · subst hxy
      exact List.find?_cons_of_pos _ (by simp)
    · rcases List.mem_cons.mp hmem with h | h
      · exact absurd h.symm hxy
      · rw [List.find?_cons_of_neg _ (by simp [hxy])]
        exact ih h

theorem find_dedup_none {y : Option String} {L : List (Option String)}
    (hmem : y ∉ L) : L.find? (fun x => decide (x = y)) = none := by
  induction L with
  | nil => rfl
  | cons x L ih =>
    have hxy : ¬ (x = y) := fun hc => hmem (hc ▸ List.mem_cons_self x L)
    rw [List.find?_cons_of_neg _ (by simp [hxy])]
    exact ih (fun h => hmem (List.mem_cons_of_mem _ h))

theorem find_map_keyed (L : List (Option String)) (g : Option String → Chunk)
    (a : String) (hg : ∀ x ∈ L, (g x).agent = x) :
    (L.map g).find? (fun c => decide (c.agent = some a))
      = (L.find? fun x => decide (x = some a)).map g := by
  induction L with
  | nil => rfl
  | cons x L ih =>
    have hx := hg x (List.mem_cons_self x L)
    by_cases hxa : x = some a
    · subst hxa
      rw [List.map_cons,
        List.find?_cons_of_pos _ (by simp [hx]),
        List.find?_cons_of_pos _ (by simp)]
      rfl
    · rw [List.map_cons,
        List.find?_cons_of_neg _ (by simp [hx, hxa]),
        List.find?_cons_of_neg _ (by simp [hxa])]
      exact ih (fun z hz => hg z (List.mem_cons_of_mem _ hz))

theorem foldl_mergeChunk_status (xs : List Chunk) :
    ∀ s : Chunk, (xs.foldl mergeChunk s).status
      = xs.foldl (fun acc d => ov d.status acc) s.status := by
  induction xs with
  | nil => intro s; rfl
  | cons x xs ih =>
    intro s
    simp only [List.foldl_cons]
    rw [ih]
    rfl

theorem merge1_status (l : List Chunk) : (merge1 l).status = statusFold l := by
  cases l with
  | nil => rfl
  | cons c cs =>
    show (cs.foldl mergeChunk c).status
      = (c :: cs).foldl (fun acc d => ov d.status acc) none
    rw [foldl_mergeChunk_status, List.foldl_cons, ov_none_right]

/-- The displayed status of an agent after folding any event list is the
last present status among that agent's events. -/
theorem displayedStatus_foldSteps (cs : List Chunk) (a : String) :
    displayedStatus (foldSteps cs) a = statusFold (filterKey cs (some a)) := by
  rw [foldSteps_canonical]
  unfold displayedStatus canonicalSteps
  rw [find_map_keyed _ _ a (fun x hx => merge1_agent _ _
    (filterKey_ne_nil cs (mem_dedupFirst.mp hx)) (fun d hd => mem_filterKey_agent hd))]
  by_cases hmem : some a ∈ cs.map fun c => c.agent
  · rw [find_dedup_self (mem_dedupFirst.mpr hmem)]
    show (merge1 (filterKey cs (some a))).status = statusFold (filterKey cs (some a))
    exact merge1_status _
  · rw [find_dedup_none (fun h => hmem (mem_dedupFirst.mp h))]
    rw [filterKey_nil_of_not_mem cs hmem]
    rfl

theorem statusFold_append (l1 l2 : List Chunk) :
    statusFold (l1 ++ l2) = l2.foldl (fun acc c => ov c.status acc) (statusFold l1) := by
  unfold statusFold
  rw [List.foldl_append]

theorem statusFold_mem (l : List Chunk) :
    ∀ acc s, l.foldl (fun acc c => ov c.status acc) acc = some s →
      (∃ c ∈ l, c.status = some s) ∨ acc = some s := by
  induction l with
  | nil => intro acc s h; exact Or.inr h
  | cons c l ih =>
    intro acc s h
    simp only [List.foldl_cons] at h
    rcases ih _ s h with ⟨d, hd, hds⟩ | hacc
    · exact Or.inl ⟨d, List.mem_cons_of_mem _ hd, hds⟩
    · cases hcs : c.status with
      | some t =>
        rw [hcs] at hacc
        simp only [ov_some] at hacc
        exact Or.inl ⟨c, List.mem_cons_self c l, hcs.trans hacc⟩
      | none =>
        rw [hcs] at hacc
        simp only [ov_none] at hacc
        exact Or.inr hacc

theorem statusFold_terminal_preserved (l : List Chunk)
    (hall : ∀ c ∈ l, noRegress c = true) :
    ∀ s, isTerminal s = true →
      isTerminalOpt (l.foldl (fun acc c => ov c.status acc) (some s)) = true := by
  induction l with
  | nil => intro s hs; exact hs
  | cons c l ih =>
    intro s hs
    simp only [List.foldl_cons]
    cases hcs : c.status with
    | none =>
      rw [ov_none]
      exact ih (fun d hd => hall d (List.mem_cons_of_mem _ hd)) s hs
    | some t =>
      rw [ov_some]
      have hterm : isTerminal t = true := by
        have := hall c (List.mem_cons_self c l)
        unfold noRegress at this
        rw [hcs] at this
        exact this
      exact ih (fun d hd => hall d (List.mem_cons_of_mem _ hd)) t hterm

/-- Two events for the same agent: terminal first, then running. -/
def regressPair : List Chunk :=
  [stepChunk { agent := "switchboard", status := Status.completed,
               thinking := "", output_summary := "" },
   stepChunk { agent := "switchboard", status := Status.running,
               thinking := "", output_summary := "" }]

/-- C7: the claim states the reducer maintains the monotonic per-agent
lifecycle within a turn.  False: the reducer is last-write-wins (use-chat.ts
lines 72-80); after the prefix whose last event completed the agent, one
more running event moves the displayed status back to running. -/
theorem status_regress_counterexample :
    displayedStatus (foldSteps (regressPair.take 1)) "switchboard"
      = some Status.completed ∧
    displayedStatus (foldSteps regressPair) "switchboard"
      = some Status.running := by
  decide

/-- C7 (amended): the reducer does not enforce the monotonic lifecycle, but
it preserves it: whenever the incoming event sequence itself satisfies the
emitter-side invariant (once terminal for an agent, every later event for
that agent is terminal or status-free), the displayed status of an agent
that has reached completed or failed stays terminal at every later point of
the turn. -/
theorem monotonic_status_preserved (cs : List Chunk) (a : String) (i j : Nat)
    (hmono : MonotoneEvents cs) (hij : i ≤ j)
    (hterm : isTerminalOpt (displayedStatus (foldSteps (cs.take i)) a) = true) :
    isTerminalOpt (displayedStatus (foldSteps (cs.take j)) a) = true := by
  rw [displayedStatus_foldSteps] at hterm ⊢
  rcases hfold : statusFold (filterKey (cs.take i) (some a)) with _ | s
  · rw [hfold] at hterm
    exact absurd hterm (by simp [isTerminalOpt])
  · rw [hfold] at hterm
    have hs : isTerminal s = true := hterm
    have hj : j = i + (j - i) := (Nat.add_sub_cancel' hij).symm
    have hsplit : cs.take j = cs.take i ++ (cs.drop i).take (j - i) := by
      rw [hj, List.take_add]
      rw [show i + (j - i) - i = j - i from by omega]
    rw [hsplit, filterKey_append, statusFold_append, hfold]
    -- every event for this agent after position i is non-regressing
    have hcross : ∀ d ∈ filterKey ((cs.drop i).take (j - i)) (some a),
        noRegress d = true := by
      obtain ⟨c0, hc0mem, hc0s⟩ :
          ∃ c ∈ filterKey (cs.take i) (some a), c.status = some s := by
        rcases statusFold_mem _ _ _ hfold with h | h
        · exact h
        · exact absurd h (by simp)
      have hc0take : c0 ∈ cs.take i := (List.mem_filter.mp hc0mem).1
      have hc0agent : c0.agent = some a := mem_filterKey_agent hc0mem
      have hc0term : hasTerminal c0 = true := by
        unfold hasTerminal
        rw [hc0s]
        exact hs
      have hpair := hmono
      rw [← List.take_append_drop i cs] at hpair
      have hmid := (List.pairwise_append.mp hpair).2.2
      intro d hd
      have hddrop : d ∈ cs.drop i :=
        List.take_subset _ _ ((List.mem_filter.mp hd).1)
      have hdagent : d.agent = some a := mem_filterKey_agent hd
      exact hmid c0 hc0take d hddrop (hc0agent.trans hdagent.symm) hc0term
    exact statusFold_terminal_preserved _ hcross s hs

/-- Witness for C7 (amended): a monotone two-event sequence for one agent,
completed then failed; the displayed status stays terminal. -/
theorem monotonic_status_preserved_witness :
    isTerminalOpt (displayedStatus (foldSteps
      (([stepChunk { agent := "switchboard", status := Status.completed,
                     thinking := "", output_summary := "" },
         stepChunk { agent := "switchboard", status := Status.failed,
                     thinking := "", output_summary := "" }]).take 2))
      "switchboard") = true :=
  monotonic_status_preserved
    [stepChunk { agent := "switchboard", status := Status.completed,
                 thinking := "", output_summary := "" },
     stepChunk { agent := "switchboard", status := Status.failed,
                 thinking := "", output_summary := "" }]
    "switchboard" 1 2 (by unfold MonotoneEvents; decide) (by decide) (by decide)

/-- Upload file lifecycle status, from the `UploadedFile` interface shared
by inline-upload.tsx and part_000. -/
inductive FileStatus where
  | pending
  | uploading
  | processing
  | completed
  | failed
deriving DecidableEq, Repr

/-- One tracked upload entry (the `File` blob itself plays no role in the
claims and is omitted). -/
structure UploadedFile where
  id : String
  status : FileStatus := FileStatus.pending
  progress : Nat := 0
  error : Option String := none
  jobId : Option String := none
deriving DecidableEq, Repr

/-- Outcome of the upload HTTP request for one file: the fetch resolved ok
with a job id in the body, or it rejected / returned non-2xx (both reach
the catch block through the thrown error). -/
inductive UploadOutcome where
  | ok (jobId : String)
  | httpError
deriving DecidableEq, Repr

/-- The settled state of one file after `UploadModal.uploadFiles`
(part_000 lines 115-179) processes it: on success the file passes through
uploading and processing and the delayed timer marks it completed; on a
failed request the catch block (lines 162-170) marks it failed with an
error message. -/
def uploadModalProcessFile (f : UploadedFile) (o : UploadOutcome) : UploadedFile :=
  if f.status = FileStatus.pending then
    match o with
    | UploadOutcome.ok j =>
        { f with status := FileStatus.completed, progress := 100, jobId := some j }
    | UploadOutcome.httpError =>
        { f with status := FileStatus.failed,
                 error := some "Upload failed. Please try again." }
  else f

/-- The settled state of one file after `InlineUpload.uploadFiles`
(inline-upload.tsx lines 115-193): its catch block (lines 175-184)
simulates success and marks the file completed even when the request
failed. -/
def inlineUploadProcessFile (f : UploadedFile) (o : UploadOutcome) : UploadedFile :=
  if f.status = FileStatus.pending then
    match o with
    | UploadOutcome.ok j =>
        { f with status := FileStatus.completed, progress := 100, jobId := some j }
    | UploadOutcome.httpError =>
        { f with status := FileStatus.completed, progress := 100 }
  else f

/-- C8: the claim states every failed upload request is surfaced as status
failed with an error message, and a failed upload is never marked
completed.  False for the inline upload flow: its catch block deliberately
marks the file completed with full progress and no error message when the
request failed. -/
theorem inline_upload_error_completed :
    (inlineUploadProcessFile { id := "f1" } UploadOutcome.httpError).status
      = FileStatus.completed ∧
    (inlineUploadProcessFile { id := "f1" } UploadOutcome.httpError).error
      = none := by
  decide

/-- C8 (amended): in the modal upload flow a failed upload request sets the
(previously pending) file to failed with an error message and never to
completed; the inline upload flow instead marks it completed (see the
counterexample). -/
theorem modal_upload_error_failed (f : UploadedFile)
    (h : f.status = FileStatus.pending) :
    (uploadModalProcessFile f UploadOutcome.httpError).status = FileStatus.failed ∧
    (uploadModalProcessFile f UploadOutcome.httpError).error
      = some "Upload failed. Please try again." ∧
    ¬ ((uploadModalProcessFile f UploadOutcome.httpError).status
      = FileStatus.completed) := by
  unfold uploadModalProcessFile
  rw [if_pos h]
  exact ⟨rfl, rfl, fun hc => FileStatus.noConfusion hc⟩

/-- Witness for C8 (amended) at a concrete pending file. -/
theorem modal_upload_error_failed_witness :
    (uploadModalProcessFile { id := "f1" } UploadOutcome.httpError).status
      = FileStatus.failed ∧
    (uploadModalProcessFile { id := "f1" } UploadOutcome.httpError).error
      = some "Upload failed. Please try again." ∧
    ¬ ((uploadModalProcessFile { id := "f1" } UploadOutcome.httpError).status
      = FileStatus.completed) :=
  modal_upload_error_failed { id := "f1" } rfl

/-- Ingestion job status, from the `IngestionJobStatus` interface in
api.ts. -/
inductive JobStatus where
  | pending
  | processing
  | completed
  | failed
deriving DecidableEq, Repr

/-- One ingestion job record as the client caches it (api.ts lines 38-48);
`progress` is a JavaScript number, modelled as a rational. -/
structure IngestionJobStatus where
  job_id : String
  status : JobStatus
  filename : String
  progress : Rat := 0
  chunks_processed : Nat := 0
  total_chunks : Nat := 0
  started_at : Option String := none
  completed_at : Option String := none
  error : Option String := none
deriving DecidableEq, Repr

/-- The terminal check of the poll loop (use-ingestion.ts lines 110-118). -/
def isTerminalJob (r : IngestionJobStatus) : Bool :=
  decide (r.status = JobStatus.completed) || decide (r.status = JobStatus.failed)

/-- `Map.prototype.set` on the cached job map: replace the entry with this
key, or append it. -/
def setJob (jobs : List (String × IngestionJobStatus)) (k : String)
    (v : IngestionJobStatus) : List (String × IngestionJobStatus) :=
  if ∃ p ∈ jobs, p.1 = k then
    jobs.map fun p => if p.1 = k then (k, v) else p
  else jobs ++ [(k, v)]

/-- The client-side polling state for one job: the cached job map and the
number of `setTimeout(poll, interval)` timers currently pending. -/
structure PollState where
  jobs : List (String × IngestionJobStatus) := []
  pendingTimers : Nat := 0
deriving DecidableEq, Repr

/-- What can happen to the polling state: a pending timer fires and the
status request resolves, a pending timer fires and the request throws, or
`clearJobs` runs. -/
inductive PollAction where
  | fire (r : IngestionJobStatus)
  | fireFail
  | clear
deriving DecidableEq, Repr

/-- One step of the poll loop of `useIngestion` (use-ingestion.ts lines
96-131) interleaved with `clearJobs` (lines 140-142): a firing poll writes
the fetched status into the map and reschedules itself unless the status
was terminal (or the fetch threw, lines 122-125); `clearJobs` only resets
the map and cancels no timer. -/
def pollStep (jobId : String) (s : PollState) : PollAction → PollState
  | PollAction.fire r =>
      if s.pendingTimers = 0 then s
      else { jobs := setJob s.jobs jobId r,
             pendingTimers := (s.pendingTimers - 1)
               + (if isTerminalJob r then 0 else 1) }
  | PollAction.fireFail =>
      if s.pendingTimers = 0 then s
      else { s with pendingTimers := s.pendingTimers - 1 }
  | PollAction.clear => { s with jobs := [] }

/-- Replay of a whole event interleaving against the polling state. -/
def pollRun (jobId : String) (s : PollState) (acts : List PollAction) : PollState :=
  acts.foldl (pollStep jobId) s

/-- A non-terminal status response for the sample job. -/
def sampleProcessing : IngestionJobStatus :=
  { job_id := "j1", status := JobStatus.processing, filename := "doc.pdf",
    progress := 0, chunks_processed := 1, total_chunks := 2 }

/-- A terminal status response for the sample job. -/
def sampleCompleted : IngestionJobStatus :=
  { job_id := "j1", status := JobStatus.completed, filename := "doc.pdf",
    progress := 1, chunks_processed := 2, total_chunks := 2 }

/-- C9: the claim states that after cancellation (clearJobs) all pending
timers stop and the poll loop performs no further mutation of the job map.
False: clearJobs only empties the map; an already-scheduled timer still
fires afterwards and its poll writes the job back into the map and even
reschedules itself. -/
theorem clearjobs_timer_counterexample :
    (pollRun "j1" { jobs := [], pendingTimers := 1 }
        [PollAction.clear, PollAction.fire sampleProcessing]).jobs
      = [("j1", sampleProcessing)] ∧
    (pollRun "j1" { jobs := [], pendingTimers := 1 }
        [PollAction.clear, PollAction.fire sampleProcessing]).pendingTimers
      = 1 := by
  decide

/-- C9 (amended): once a poll observes a terminal status, no further poll
is scheduled: the firing timer is consumed, none replaces it, and any
number of further timer events leaves the state untouched; clearJobs,
however, does not cancel a pending timer (see the counterexample). -/
theorem terminal_stops_polling (jobId : String)
    (jobs0 : List (String × IngestionJobStatus)) (r : IngestionJobStatus)
    (rest : List IngestionJobStatus) (hterm : isTerminalJob r = true) :
    pollRun jobId { jobs := jobs0, pendingTimers := 1 }
        (PollAction.fire r :: rest.map PollAction.fire)
      = { jobs := setJob jobs0 jobId r, pendingTimers := 0 } := by
  have hzero : ∀ (rs : List IngestionJobStatus) (s : PollState),
      s.pendingTimers = 0 → pollRun jobId s (rs.map PollAction.fire) = s := by
    intro rs
    induction rs with
    | nil => intro s _; rfl
    | cons x rs ih =>
      intro s hs
      show pollRun jobId (pollStep jobId s (PollAction.fire x))
        (rs.map PollAction.fire) = s
      rw [show pollStep jobId s (PollAction.fire x) = s from by
        simp only [pollStep]
        rw [if_pos hs]]
      exact ih s hs
  show pollRun jobId
    (pollStep jobId { jobs := jobs0, pendingTimers := 1 } (PollAction.fire r))
    (rest.map PollAction.fire) = _
  rw [show pollStep jobId { jobs := jobs0, pendingTimers := 1 } (PollAction.fire r)
      = { jobs := setJob jobs0 jobId r, pendingTimers := 0 } from by
    simp only [pollStep]
    rw [if_neg (fun hc => Nat.one_ne_zero hc), hterm]
    rfl]
  exact hzero rest _ rfl

/-- Witness for C9 (amended): a terminal response followed by one stray
timer event. -/
theorem terminal_stops_polling_witness :
    pollRun "j1" { jobs := [], pendingTimers := 1 }
        (PollAction.fire sampleCompleted :: [sampleProcessing].map PollAction.fire)
      = { jobs := setJob [] "j1" sampleCompleted, pendingTimers := 0 } :=
  terminal_stops_polling "j1" [] sampleCompleted [sampleProcessing] (by decide)

/-- The request body of the streaming chat call (api.ts `ChatRequest`). -/
structure ChatRequest where
  message : String
  conversation_id : Option String := none
  stream : Bool := true
deriving DecidableEq, Repr

/-- The React state of the `useChat` hook that `sendMessage` touches. -/
structure ChatHookState where
  messages : List Message := []
  isLoading : Bool := false
  currentSteps : List Chunk := []
  conversationId : Option String := none
deriving DecidableEq, Repr

/-- The user message appended before the request (use-chat.ts lines 40-45);
`id` and `timestamp` are clock input and omitted. -/
def userMessage (content : String) : Message :=
  { role := Role.user, content := content.trim }

/-- The synchronous prefix of `useChat.sendMessage` (use-chat.ts lines
35-63): the guard of line 37, the appended user message, the state flips of
lines 47-49, and the request handed to `api.chatStream` (`none` when the
guard returns early). -/
def sendMessageGuard (st : ChatHookState) (content : String) :
    ChatHookState × Option ChatRequest :=
  if content.trim = "" ∨ st.isLoading = true then (st, none)
  else
    ({ st with messages := st.messages ++ [userMessage content],
               isLoading := true, currentSteps := [] },
     some { message := content, conversation_id := st.conversationId })

/-- The frame `useWebSocketChat.sendMessage` writes to the socket
(use-chat.ts lines 238-243). -/
structure WsFrame where
  message : String
  conversation_id : Option String := none
deriving DecidableEq, Repr

/-- The synchronous prefix of `useWebSocketChat.sendMessage` (use-chat.ts
lines 221-246): the same guard plus the null-socket check (`hasSocket`
models `wsRef.current` being non-null). -/
def wsSendGuard (st : WsState) (hasSocket : Bool) (content : String)
    (conversationId : Option String) : WsState × Option WsFrame :=
  if content.trim = "" ∨ st.isLoading = true ∨ hasSocket = false then (st, none)
  else
    ({ st with messages := st.messages ++ [userMessage content],
               isLoading := true, currentSteps := [] },
     some { message := content, conversation_id := conversationId })

/-- C10: calling sendMessage with a message that is empty or whitespace
only after trimming, or while a previous turn is in flight, or (socket
variant) while no socket exists, is a complete no-op: no request or socket
frame is sent, and messages, isLoading, currentSteps and conversationId
are all left unchanged. -/
theorem send_guard_noop (st : ChatHookState) (ws : WsState) (hasSocket : Bool)
    (content : String) (cid : Option String)
    (h : content.trim = "" ∨ st.isLoading = true)
    (h2 : content.trim = "" ∨ ws.isLoading = true ∨ hasSocket = false) :
    sendMessageGuard st content = (st, none) ∧
    wsSendGuard ws hasSocket content cid = (ws, none) := by
  constructor
  · unfold sendMessageGuard
    rw [if_pos h]
  · unfold wsSendGuard
    rw [if_pos h2]

/-- Witness for C10: a send attempted while the previous turn is still in
flight (isLoading true) against both hook variants. -/
theorem send_guard_noop_witness :
    sendMessageGuard { isLoading := true } "ping"
        = ({ isLoading := true }, none) ∧
    wsSendGuard { isLoading := true } true "ping" none
        = ({ isLoading := true }, none) :=
  send_guard_noop { isLoading := true } { isLoading := true } true "ping" none
    (Or.inr rfl) (Or.inr (Or.inl rfl))
